import Mathlib

/-!
Shallow embedding of the SNPX client (snpx_client.py): the 56-byte frame
template, the digital-signal codec, the assignment-slot allocator, and the
typed variable marshaller, together with theorems settling the spec claims.
Byte buffers are lists of naturals; Python list surgery (slice assignment,
negative-index truncation, index assignment) is modelled by explicit
take/append/drop operations, with index assignment out of range modelled
as an Option failure (Python raises IndexError there).
-/

namespace Snpx

/-- The 56-byte BASE_MSG template from the source, one natural per byte. -/
def BASE_MSG : List Nat :=
  [0x02, 0x00, 0x00, 0x00, 0x00, 0x00, 0x00, 0x00,
   0x00, 0x01, 0x00, 0x00, 0x00, 0x00, 0x00, 0x00,
   0x00, 0x01, 0x00, 0x00, 0x00, 0x00, 0x00, 0x00,
   0x00, 0x00, 0x00, 0x00, 0x00, 0x00, 0x00, 0xc0,
   0x00, 0x00, 0x00, 0x00, 0x10, 0x0e, 0x00, 0x00,
   0x01, 0x01, 0x04, 0x46, 0x00, 0x00, 0x00, 0x00,
   0x00, 0x00, 0x00, 0x00, 0x00, 0x00, 0x00, 0x00]

/-- Python slice insertion `l[i:i] = xs`. -/
def pyInsert (l : List Nat) (i : Nat) (xs : List Nat) : List Nat :=
  l.take i ++ xs ++ l.drop i

/-- Python `l[:-k]` for `k ≥ 1`. -/
def pyDropLast (l : List Nat) (k : Nat) : List Nat :=
  l.take (l.length - k)

/-- One packed byte of `DigitalSignal.write` (source lines 129-136): byte `i`
collects input bits `i*8 .. i*8+7`, bit `j` set iff index `i*8+j` is in
range and true; `l.getD (i*8+j) false` is exactly the source condition
`bit_index < count and value[bit_index]`. -/
def packByte (v : List Bool) (i : Nat) : Nat :=
  (List.range 8).foldl
    (fun b j => if v.getD (i * 8 + j) false then b ||| (1 <<< j) else b) 0

/-- The packed payload of `DigitalSignal.write`: `ceil(count/8)` bytes. -/
def pack (v : List Bool) : List Nat :=
  (List.range ((v.length + 7) / 8)).map (packByte v)

/-- The bits of one response byte, least-significant first, `k` of them
(source lines 57-61: `bool((byte_val >> bit) & 1)` for `bit` in `0..k-1`). -/
def bitsOfByte (b : Nat) (k : Nat) : List Bool :=
  (List.range k).map (fun j => b.testBit j)

/-- The bit-unpacking loop of `_decode_digital_outputs` (source lines 48-67),
acting on already-parsed data bytes: each byte yields up to 8 bits,
least-significant first, stopping once `req` bits have been produced. -/
def decodeBits : List Nat → Nat → List Bool
  | [], _ => []
  | b :: rest, req =>
    if req = 0 then []
    else bitsOfByte b (min 8 req) ++ decodeBits rest (req - min 8 req)

/-- The full `_decode_digital_outputs` needs hex-string handling; defined
further below.  First the write path, `DigitalSignal.write` (source lines
95-145): builds the frame from `BASE_MSG` by field stores, the two slice
insertions and truncations for the large-write shape, and either splices the
packed payload inside the header tail (count ≤ 48) or appends it
(count > 48).  Returns `none` when no packet is sent (empty input). -/
def digitalWrite (code address : Nat) (value : List Bool) (start_index : Nat) :
    Option (List Nat) :=
  let start := address + start_index - 1
  let count := value.length
  if count = 0 then none
  else
    let c1 := if count ≤ 48 then (BASE_MSG.set 9 0x01).set 17 0x01
              else ((BASE_MSG.set 9 0x02).set 17 0x02).set 31 0x80
    let c2 := ((((c1.set 2 (count % 256)).set 3 (count / 256 % 256)).set 30
        (count % 256)).set 42 0x07).set 43 code
    let c3 := (c2.set 44 (start % 256)).set 45 (start / 256 % 256)
    let ba := ((count + 7) / 8) * 8
    let c4 := (c3.set 46 (ba % 256)).set 47 (ba / 256 % 256)
    let c5 := if 48 < count then
        pyDropLast (pyInsert (pyInsert c4 42 (List.replicate 6 0x00)) 48 [0x01, 0x01]) 8
      else c4
    let payload := pack value
    if 48 < count then
      some ((c5 ++ payload).set 4 payload.length)
    else
      some (pyDropLast (pyInsert c5 48 payload) payload.length)

/-! ### Digital codec lemmas -/

theorem pack_length (v : List Bool) : (pack v).length = (v.length + 7) / 8 := by
  simp [pack]

theorem testBit_foldl_or (l : List Nat) (b : Nat) (p : Nat → Bool) (k : Nat) :
    (l.foldl (fun acc j => if p j then acc ||| (1 <<< j) else acc) b).testBit k
      = (b.testBit k || l.any (fun j => p j && j == k)) := by
  induction l generalizing b with
  | nil => simp
  | cons a t ih =>
    simp only [List.foldl_cons, List.any_cons, ih]
    by_cases hp : p a
    · by_cases hak : a = k
      · subst hak
        simp [hp, Nat.testBit_or, Nat.one_shiftLeft, Nat.testBit_two_pow_self]
      · have hbeq : (a == k) = false := by simp [hak]
        simp [hp, Nat.testBit_or, Nat.one_shiftLeft,
          Nat.testBit_two_pow_of_ne hak, hbeq, Bool.or_assoc]
    · simp [hp]

theorem testBit_packByte (v : List Bool) (i k : Nat) (hk : k < 8) :
    (packByte v i).testBit k = v.getD (i * 8 + k) false := by
  unfold packByte
  rw [testBit_foldl_or]
  rw [show List.range 8 = [0, 1, 2, 3, 4, 5, 6, 7] from rfl]
  interval_cases k <;> simp

theorem map_getD_range_eq_take (v : List Bool) (k : Nat) (h : k ≤ v.length) :
    (List.range k).map (fun j => v.getD j false) = v.take k := by
  apply List.ext_getElem
  · simp [Nat.min_eq_left h]
  · intro i h1 h2
    simp only [List.getElem_map, List.getElem_range, List.getElem_take]
    have hi : i < v.length := by simp at h1; omega
    simp [List.getD_eq_getElem?_getD, List.getElem?_eq_getElem hi]

theorem bitsOfByte_packByte_zero (v : List Bool) (k : Nat) (h8 : k ≤ 8)
    (hlen : k ≤ v.length) :
    bitsOfByte (packByte v 0) k = v.take k := by
  unfold bitsOfByte
  rw [← map_getD_range_eq_take v k hlen]
  apply List.map_congr_left
  intro j hj
  have : j < 8 := lt_of_lt_of_le (List.mem_range.mp hj) h8
  rw [testBit_packByte v 0 j this]
  simp

theorem packByte_drop (v : List Bool) (i : Nat) :
    packByte (v.drop 8) i = packByte v (i + 1) := by
  unfold packByte
  have hf : (fun (b : Nat) (j : Nat) =>
        if (v.drop 8).getD (i * 8 + j) false then b ||| (1 <<< j) else b)
      = (fun (b : Nat) (j : Nat) =>
        if v.getD ((i + 1) * 8 + j) false then b ||| (1 <<< j) else b) := by
    funext b j
    have h : (v.drop 8).getD (i * 8 + j) false = v.getD ((i + 1) * 8 + j) false := by
      have e : (i + 1) * 8 + j = 8 + (i * 8 + j) := by omega
      rw [e]
      simp [List.getD_eq_getElem?_getD, List.getElem?_drop]
    rw [h]
  rw [hf]

theorem pack_cons_drop (v : List Bool) (h : 8 < v.length) :
    pack v = packByte v 0 :: pack (v.drop 8) := by
  unfold pack
  have hc : (v.length + 7) / 8 = ((v.drop 8).length + 7) / 8 + 1 := by
    simp only [List.length_drop]
    omega
  rw [hc, List.range_succ_eq_map, List.map_cons, List.map_map]
  congr 1
  apply List.map_congr_left
  intro i _
  simp only [Function.comp_apply]
  rw [packByte_drop]

theorem decode_pack_aux : ∀ n (v : List Bool), v.length = n →
    decodeBits (pack v) v.length = v := by
  intro n
  induction n using Nat.strong_induction_on with
  | _ n ih =>
    intro v hv
    by_cases h0 : v.length = 0
    · have : v = [] := List.length_eq_zero.mp h0
      subst this
      simp [pack, decodeBits]
    · by_cases h8 : v.length ≤ 8
      · have hbc : (v.length + 7) / 8 = 1 := by omega
        have hp : pack v = [packByte v 0] := by
          unfold pack
          rw [hbc]
          rfl
        rw [hp]
        unfold decodeBits
        rw [if_neg h0]
        have hmin : min 8 v.length = v.length := by omega
        rw [hmin, bitsOfByte_packByte_zero v v.length h8 le_rfl]
        simp [decodeBits]
      · push_neg at h8
        rw [pack_cons_drop v h8]
        unfold decodeBits
        rw [if_neg h0]
        have hmin : min 8 v.length = 8 := by omega
        rw [hmin, bitsOfByte_packByte_zero v 8 le_rfl (by omega)]
        have hdl : (v.drop 8).length = v.length - 8 := by simp
        have := ih (v.length - 8) (by omega) (v.drop 8) hdl
        rw [← hdl, this]
        exact List.take_append_drop 8 v

theorem decode_pack (v : List Bool) : decodeBits (pack v) v.length = v :=
  decode_pack_aux v.length v rfl

/-! ### Frame-shape lemmas for DigitalSignal.write -/

theorem digitalWrite_small_eq (code address : Nat) (value : List Bool)
    (start_index : Nat) (h0 : ¬ value.length = 0) (hle : value.length ≤ 48) :
    ∃ c : List Nat, c.length = 56 ∧
      digitalWrite code address value start_index
        = some (pyDropLast (pyInsert c 48 (pack value)) (pack value).length) := by
  have hlt : ¬ 48 < value.length := by omega
  unfold digitalWrite
  simp only [if_neg h0, if_pos hle, if_neg hlt]
  refine ⟨_, ?_, rfl⟩
  simp [BASE_MSG]

theorem digitalWrite_large_eq (code address : Nat) (value : List Bool)
    (start_index : Nat) (h48 : 48 < value.length) :
    ∃ c : List Nat, c.length = 56 ∧
      digitalWrite code address value start_index
        = some ((c ++ pack value).set 4 (pack value).length) := by
  have h0 : ¬ value.length = 0 := by omega
  have hle : ¬ value.length ≤ 48 := by omega
  unfold digitalWrite
  simp only [if_neg h0, if_neg hle, if_pos h48]
  refine ⟨_, ?_, rfl⟩
  simp [pyDropLast, pyInsert, BASE_MSG]

theorem splice_tail_eq (c p : List Nat) (hc : c.length = 56) (hp : p.length ≤ 8) :
    pyDropLast (pyInsert c 48 p) p.length
      = c.take 48 ++ p ++ (c.drop 48).take (8 - p.length) := by
  have h1 : pyInsert c 48 p = (c.take 48 ++ p) ++ c.drop 48 := by
    simp [pyInsert, List.append_assoc]
  have hlen : (pyInsert c 48 p).length = 56 + p.length := by
    simp [pyInsert, hc]; omega
  rw [pyDropLast, hlen, h1]
  have e : 56 + p.length - p.length = 56 := by omega
  rw [e, List.take_append_eq_append_take]
  have h2 : (c.take 48 ++ p).take 56 = c.take 48 ++ p := by
    apply List.take_of_length_le
    simp [hc]; omega
  have h3 : (c.take 48 ++ p).length = 48 + p.length := by simp [hc]
  rw [h2, h3]
  have e2 : 56 - (48 + p.length) = 8 - p.length := by omega
  rw [e2]

theorem splice_tail_length (c p : List Nat) (hc : c.length = 56)
    (hp : p.length ≤ 8) :
    (pyDropLast (pyInsert c 48 p) p.length).length = 56 := by
  rw [splice_tail_eq c p hc hp]
  simp [hc]
  omega

theorem splice_tail_extract (c p : List Nat) (hc : c.length = 56)
    (hp : p.length ≤ 8) :
    ((pyDropLast (pyInsert c 48 p) p.length).drop 48).take p.length = p := by
  rw [splice_tail_eq c p hc hp, List.append_assoc]
  rw [List.drop_left' (by simp [hc])]
  rw [List.take_append_eq_append_take, List.take_length]
  simp

theorem append_set4_facts (c p : List Nat) (hc : c.length = 56) (k : Nat) :
    ((c ++ p).set 4 k).length = 56 + p.length
    ∧ ((c ++ p).set 4 k).drop 56 = p
    ∧ ((c ++ p).set 4 k)[4]? = some k := by
  refine ⟨by simp [hc], ?_, ?_⟩
  · rw [List.drop_set]
    rw [if_pos (by omega)]
    exact List.drop_left' hc
  · exact List.getElem?_set_self (by simp [hc]; omega)

/-- C5: the write frame shape is a function of the signal count with the
boundary at 48.  Count 0 sends no packet; 1 ≤ count ≤ 48 yields the 56-byte
small-write frame with the ceil(count/8)-byte payload spliced at offset 48
inside the header tail; count > 48 yields the large-write frame consisting of
a 56-byte header followed by the appended payload, with the text-length byte
(offset 4) equal to the payload byte count; count = 128 gives a 16-byte
payload. -/
theorem claim_C5_write_frame_shape (code address : Nat) (value : List Bool)
    (start_index : Nat) :
    (value.length = 0 → digitalWrite code address value start_index = none)
    ∧ (¬ value.length = 0 → value.length ≤ 48 →
        ∃ frame, digitalWrite code address value start_index = some frame
          ∧ frame.length = 56
          ∧ (frame.drop 48).take ((value.length + 7) / 8) = pack value
          ∧ (pack value).length = (value.length + 7) / 8)
    ∧ (48 < value.length →
        ∃ frame, digitalWrite code address value start_index = some frame
          ∧ frame.length = 56 + (pack value).length
          ∧ frame.drop 56 = pack value
          ∧ frame[4]? = some ((pack value).length)
          ∧ (pack value).length = (value.length + 7) / 8)
    ∧ (value.length = 128 → (pack value).length = 16) := by
  refine ⟨?_, ?_, ?_, ?_⟩
  · intro h
    unfold digitalWrite
    rw [if_pos h]
  · intro h0 hle
    obtain ⟨c, hc, heq⟩ := digitalWrite_small_eq code address value start_index h0 hle
    have hp : (pack value).length ≤ 8 := by
      rw [pack_length]; omega
    refine ⟨_, heq, splice_tail_length c _ hc hp, ?_, pack_length value⟩
    rw [← pack_length]
    exact splice_tail_extract c _ hc hp
  · intro h48
    obtain ⟨c, hc, heq⟩ := digitalWrite_large_eq code address value start_index h48
    obtain ⟨hl, hd, hg⟩ := append_set4_facts c (pack value) hc (pack value).length
    exact ⟨_, heq, hl, hd, hg, pack_length value⟩
  · intro h
    rw [pack_length, h]

/-- C5 witness: a 128-bit write selects the large frame, with a 16-byte
payload appended after the 56-byte header and text-length byte 16. -/
theorem claim_C5_write_frame_shape_witness :
    ∃ frame, digitalWrite 0x46 0 (List.replicate 128 true) 1 = some frame
      ∧ frame.length = 56 + (pack (List.replicate 128 true)).length
      ∧ frame.drop 56 = pack (List.replicate 128 true)
      ∧ frame[4]? = some ((pack (List.replicate 128 true)).length)
      ∧ (pack (List.replicate 128 true)).length = 16 := by
  obtain ⟨f, h1, h2, h3, h4, h5⟩ :=
    (claim_C5_write_frame_shape 0x46 0 (List.replicate 128 true) 1).2.2.1
      (by simp)
  refine ⟨f, h1, h2, h3, h4, ?_⟩
  rw [h5]
  simp

/-- C6: the digital codec round-trips; packing a boolean sequence of length
count and unpacking least-significant-bit-first while requesting count bits
returns the original sequence, for every count in the listed set. -/
theorem claim_C6_digital_roundtrip (v : List Bool)
    (h : v.length ∈ ([0, 1, 8, 47, 48, 49, 64, 128] : List Nat)) :
    decodeBits (pack v) v.length = v :=
  decode_pack v

/-- C6 witness at a concrete 8-bit sequence. -/
theorem claim_C6_digital_roundtrip_witness :
    ([true, false, true, true, false, false, true, false].length
        ∈ ([0, 1, 8, 47, 48, 49, 64, 128] : List Nat))
    ∧ decodeBits (pack [true, false, true, true, false, false, true, false])
        [true, false, true, true, false, false, true, false].length
      = [true, false, true, true, false, false, true, false] :=
  ⟨by decide,
   claim_C6_digital_roundtrip [true, false, true, true, false, false, true, false]
     (by decide)⟩

/-! ### Full response decoding, `_decode_digital_outputs` (source lines 29-69).
The response is the hex string the read path passes in (`resp.hex()`); the
decoder cleans separators, slices the payload region, and parses two-char
chunks with a ValueError fallback that emits `false` bits.  The hex parser
below accepts exactly the hex digits; Python `int(x, 16)` also accepts signed
or underscore-grouped forms, but the success and failure branches emit the
same number of bits, so the properties proved here do not depend on that. -/

def hexDigitVal (ch : Char) : Option Nat :=
  if '0' ≤ ch ∧ ch ≤ '9' then some (ch.toNat - '0'.toNat)
  else if 'a' ≤ ch ∧ ch ≤ 'f' then some (ch.toNat - 'a'.toNat + 10)
  else if 'A' ≤ ch ∧ ch ≤ 'F' then some (ch.toNat - 'A'.toNat + 10)
  else none

/-- Python `int(chunk, 16)` on a nonempty chunk of hex digits. -/
def parseHexChunk (chunk : List Char) : Option Nat :=
  if chunk = [] then none
  else chunk.foldl (fun acc ch => match acc, hexDigitVal ch with
    | some a, some d => some (a * 16 + d)
    | _, _ => none) (some 0)

/-- Source line 41: `replace(" ", "").replace(":", "")`. -/
def cleanHex (resp : List Char) : List Char :=
  resp.filter (fun ch => !(ch == ' ' || ch == ':'))

/-- Source line 42: `clean_hex[112:] if len(clean_hex) > 112 else
clean_hex[88:-4]`. -/
def dataHexOf (resp : List Char) : List Char :=
  let clean := cleanHex resp
  if 112 < clean.length then clean.drop 112
  else (clean.take (clean.length - 4)).drop 88

/-- The `for i in range(0, len(data_hex), 2)` traversal of source line 51:
the data region split into two-char chunks, last chunk possibly one char. -/
def chunkPairs : List Char → List (List Char)
  | [] => []
  | [a] => [[a]]
  | a :: b :: rest => [a, b] :: chunkPairs rest

/-- The chunked parse loop of source lines 51-67: one byte per chunk, up to
8 bits per byte least-significant-bit first, `false` bits on a ValueError,
stopping once `req` bits were decoded. -/
def decodeChunks : List (List Char) → Nat → List Bool
  | [], _ => []
  | chunk :: rest, req =>
    if req = 0 then []
    else
      (match parseHexChunk chunk with
        | some v => bitsOfByte v (min 8 req)
        | none => List.replicate (min 8 req) false)
        ++ decodeChunks rest (req - min 8 req)

/-- The whole `_decode_digital_outputs` on a hex-string response. -/
def decode_digital_outputs (resp : List Char) (requested : Nat) : List Bool :=
  if resp = [] then []
  else if (dataHexOf resp).length < 2 then []
  else decodeChunks (chunkPairs (dataHexOf resp)) requested

theorem decodeChunks_length_le (cs : List (List Char)) (req : Nat) :
    (decodeChunks cs req).length ≤ req := by
  induction cs generalizing req with
  | nil => simp [decodeChunks]
  | cons chunk rest ih =>
    unfold decodeChunks
    by_cases h : req = 0
    · simp [h]
    · rw [if_neg h]
      cases hp : parseHexChunk chunk with
      | some v =>
        simp only [List.length_append, bitsOfByte, List.length_map,
          List.length_range]
        have := ih (req - min 8 req)
        omega
      | none =>
        simp only [List.length_append, List.length_replicate]
        have := ih (req - min 8 req)
        omega

theorem decodeChunks_eq_nil_iff (cs : List (List Char)) (req : Nat) :
    decodeChunks cs req = [] ↔ cs = [] ∨ req = 0 := by
  cases cs with
  | nil => simp [decodeChunks]
  | cons chunk rest =>
    unfold decodeChunks
    by_cases h : req = 0
    · simp [h]
    · rw [if_neg h]
      simp only [List.cons_ne_nil, false_or, h, iff_false]
      intro hcon
      rcases List.append_eq_nil.mp hcon with ⟨h1, _⟩
      cases hp : parseHexChunk chunk with
      | some v =>
        rw [hp] at h1
        have := congrArg List.length h1
        simp [bitsOfByte] at this
        omega
      | none =>
        rw [hp] at h1
        have := congrArg List.length h1
        simp at this
        omega

theorem chunkPairs_eq_nil_iff (l : List Char) : chunkPairs l = [] ↔ l = [] := by
  match l with
  | [] => simp [chunkPairs]
  | [a] => simp [chunkPairs]
  | a :: b :: rest => simp [chunkPairs]

/-- C9 counterexample: a response long enough to carry payload decodes to the
empty sequence when zero bits are requested, refuting that an empty result
happens only on an empty or too-short response. -/
theorem claim_C9_counterexample :
    decode_digital_outputs (List.replicate 114 'a') 0 = []
    ∧ List.replicate 114 'a' ≠ ([] : List Char)
    ∧ ¬ (dataHexOf (List.replicate 114 'a')).length < 2 := by
  refine ⟨by decide, by decide, by decide⟩

/-- C9 amended: decoding is total (never throws) and best-effort — at most
the requested number of bits is produced, a chunk that fails to parse
contributes `false` bits, and the result is empty exactly when the response
is empty, the sliced data region is shorter than one byte, or zero bits were
requested (the last case is the amendment). -/
theorem claim_C9_decode_graceful (resp : List Char) (requested : Nat) :
    (decode_digital_outputs resp requested).length ≤ requested
    ∧ (decode_digital_outputs resp requested = []
        ↔ resp = [] ∨ (dataHexOf resp).length < 2 ∨ requested = 0)
    ∧ (∀ l : List Char, ∀ req : Nat, l ≠ [] → req ≠ 0 →
        parseHexChunk (l.take 2) = none →
        (decodeChunks (chunkPairs l) req).take (min 8 req)
          = List.replicate (min 8 req) false) := by
  refine ⟨?_, ?_, ?_⟩
  · unfold decode_digital_outputs
    by_cases h1 : resp = []
    · simp [h1]
    · rw [if_neg h1]
      by_cases h2 : (dataHexOf resp).length < 2
      · simp [h2]
      · rw [if_neg h2]
        exact decodeChunks_length_le _ _
  · unfold decode_digital_outputs
    by_cases h1 : resp = []
    · simp [h1]
    · rw [if_neg h1]
      by_cases h2 : (dataHexOf resp).length < 2
      · simp [h1, h2]
      · rw [if_neg h2, decodeChunks_eq_nil_iff, chunkPairs_eq_nil_iff]
        constructor
        · intro h
          rcases h with h | h
          · exact Or.inr (Or.inl (by rw [h] at h2; simp at h2))
          · exact Or.inr (Or.inr h)
        · intro h
          rcases h with h | h | h
          · exact absurd h h1
          · exact absurd h h2
          · exact Or.inr h
  · intro l req hl hr hp
    have hfirst : ∃ rest, chunkPairs l = l.take 2 :: rest := by
      match l with
      | [a] => exact ⟨[], rfl⟩
      | a :: b :: r => exact ⟨chunkPairs r, rfl⟩
    obtain ⟨rest, hrest⟩ := hfirst
    rw [hrest]
    unfold decodeChunks
    rw [if_neg hr, hp]
    exact List.take_left' (by simp)

/-- C9 witness: a concrete long response with a positive requested count
yields a nonempty best-effort result, and a malformed leading chunk yields
eight false bits. -/
theorem claim_C9_decode_graceful_witness :
    (decode_digital_outputs (List.replicate 114 'a') 5).length ≤ 5
    ∧ decode_digital_outputs (List.replicate 114 'a') 5 ≠ []
    ∧ (decodeChunks (chunkPairs ['z', 'z', 'a', 'b']) 16).take 8
        = List.replicate 8 false := by
  have h := claim_C9_decode_graceful (List.replicate 114 'a') 5
  refine ⟨h.1, ?_, ?_⟩
  · intro he
    rcases h.2.1.mp he with h1 | h1 | h1
    · exact absurd h1 (by decide)
    · exact absurd h1 (by decide)
    · exact absurd h1 (by decide)
  · have hm := h.2.2 ['z', 'z', 'a', 'b'] 16 (by decide) (by decide) (by decide)
    simpa using hm

/-! ### Assignment allocator (source lines 283-392).
The `_sys_vars` dict is modelled as an association list in insertion order;
each value is the `{"size", "multiply", "index"}` record stored by
`set_asg`.  The wire interaction of `set_asg` (sendall, then the dict
insertion, then recv) is modelled by an outcome oracle: the SETASG packet
bytes themselves do not influence the table, the return value or the wire
count, so they are not rebuilt here. -/

structure FanucVariable where
  size : Nat
  multiply : Int
deriving DecidableEq, Repr

def VariableTypes.INT : FanucVariable := ⟨2, 1⟩

def VariableTypes.REAL : FanucVariable := ⟨2, 0⟩

def VariableTypes.STRING : FanucVariable := ⟨80, 0⟩

structure AsgSlot where
  size : Nat
  multiply : Int
  index : Nat
deriving DecidableEq, Repr

def lookupAsg : List (String × AsgSlot) → String → Option AsgSlot
  | [], _ => none
  | e :: t, n => if e.1 = n then some e.2 else lookupAsg t n

/-- The overlap test of source line 309:
`num < existing_index + existing_size and num + size > existing_index`. -/
def overlapCond (num size : Nat) (s : AsgSlot) : Bool :=
  decide (num < s.index + s.size) && decide (num + size > s.index)

/-- `check_if_asg_avail` (source lines 283-313). -/
def check_if_asg_avail (t : List (String × AsgSlot)) (num size : Nat) : Bool :=
  if num < 1 || 80 < num then false
  else if 80 < num + size - 1 then false
  else t.all (fun e => ! overlapCond num size e.2)

/-- The `for start_num in range(1, 81)` loop of `get_next_asg_num`
(source lines 315-329), as first-free search with explicit fuel. -/
def nextAsgLoop (t : List (String × AsgSlot)) (size : Nat) :
    Nat → Nat → Option Nat
  | _, 0 => none
  | start, fuel + 1 =>
    if check_if_asg_avail t start size then some start
    else nextAsgLoop t size (start + 1) fuel

def get_next_asg_num (t : List (String × AsgSlot)) (size : Nat) : Option Nat :=
  nextAsgLoop t size 1 80

/-- Outcome of the two socket operations inside `set_asg`. -/
inductive Wire
  | ok
  | sendFail
  | recvFail
deriving DecidableEq, Repr

/-- The Python-level result of a `set_asg` call: the bare `return` of the
cached path (None), the acknowledgement bytes, or a raised exception. -/
inductive PyRet
  | retNone
  | retResp
  | raised (msg : String)
deriving DecidableEq, Repr

structure AsgResult where
  ret : PyRet
  table : List (String × AsgSlot)
  sends : Nat
deriving DecidableEq, Repr

/-- The send/record/recv tail of `set_asg` (source lines 350-392): range
check, `sendall`, the dict insertion, then `recv`.  A send failure raises
before the insertion; a recv failure raises after it. -/
def setAsgSend (t : List (String × AsgSlot)) (name : String)
    (vt : FanucVariable) (n : Nat) (w : Wire) : AsgResult :=
  if n < 1 || 80 < n then ⟨.raised "Assignment index out of range", t, 0⟩
  else
    match w with
    | .sendFail => ⟨.raised "send failed", t, 0⟩
    | .ok => ⟨.retResp, t ++ [(name, ⟨vt.size, vt.multiply, n⟩)], 1⟩
    | .recvFail => ⟨.raised "recv failed", t ++ [(name, ⟨vt.size, vt.multiply, n⟩)], 1⟩

/-- `set_asg` (source lines 331-392). -/
def set_asg (t : List (String × AsgSlot)) (name : String) (vt : FanucVariable)
    (asg? : Option Nat) (w : Wire) : AsgResult :=
  if (lookupAsg t name).isSome then ⟨.retNone, t, 0⟩
  else
    match asg? with
    | none =>
      match get_next_asg_num t vt.size with
      | none => ⟨.raised "No available assignment number found", t, 0⟩
      | some n => setAsgSend t name vt n w
    | some n =>
      if check_if_asg_avail t n vt.size then setAsgSend t name vt n w
      else ⟨.raised "Assignment number is not available", t, 0⟩

/-! ### Allocator lemmas -/

theorem nextAsgLoop_some_spec (t : List (String × AsgSlot)) (size : Nat) :
    ∀ fuel start n, nextAsgLoop t size start fuel = some n →
      start ≤ n ∧ n < start + fuel ∧ check_if_asg_avail t n size = true
        ∧ ∀ m, start ≤ m → m < n → check_if_asg_avail t m size = false := by
  intro fuel
  induction fuel with
  | zero => intro start n h; simp [nextAsgLoop] at h
  | succ f ih =>
    intro start n h
    unfold nextAsgLoop at h
    by_cases hc : check_if_asg_avail t start size = true
    · rw [if_pos hc] at h
      obtain rfl : start = n := Option.some.inj h
      exact ⟨le_rfl, by omega, hc, fun m h1 h2 => by omega⟩
    · rw [if_neg hc] at h
      obtain ⟨h1, h2, h3, h4⟩ := ih (start + 1) n h
      refine ⟨by omega, by omega, h3, ?_⟩
      intro m hm1 hm2
      by_cases he : m = start
      · subst he
        simpa using hc
      · exact h4 m (by omega) hm2

theorem nextAsgLoop_none_spec (t : List (String × AsgSlot)) (size : Nat) :
    ∀ fuel start, nextAsgLoop t size start fuel = none →
      ∀ m, start ≤ m → m < start + fuel →
        check_if_asg_avail t m size = false := by
  intro fuel
  induction fuel with
  | zero => intro start _ m h1 h2; omega
  | succ f ih =>
    intro start h m h1 h2
    unfold nextAsgLoop at h
    by_cases hc : check_if_asg_avail t start size = true
    · rw [if_pos hc] at h
      exact absurd h (by simp)
    · rw [if_neg hc] at h
      by_cases he : m = start
      · subst he
        simpa using hc
      · exact ih (start + 1) h m (by omega) (by omega)

theorem overlapCond_iff_exists (num size : Nat) (s : AsgSlot)
    (hs : 1 ≤ size) (hss : 1 ≤ s.size) :
    overlapCond num size s = true
      ↔ ∃ x, (num ≤ x ∧ x < num + size)
          ∧ (s.index ≤ x ∧ x < s.index + s.size) := by
  unfold overlapCond
  simp only [Bool.and_eq_true, decide_eq_true_eq, gt_iff_lt]
  constructor
  · rintro ⟨h1, h2⟩
    exact ⟨max num s.index, ⟨by omega, by omega⟩, by omega, by omega⟩
  · rintro ⟨x, ⟨a1, a2⟩, b1, b2⟩
    omega

/-- C7: `check_if_asg_avail` returns false exactly on out-of-range starting
numbers, ranges running past slot 80, or genuine intersection with a
recorded entry's range; and `get_next_asg_num` returns the smallest start in
[1, 80] whose range is free, or None when no start works.  Stated for
positive requested and recorded sizes, where the code's overlap formula
coincides with nonempty range intersection. -/
theorem claim_C7_range_free_and_next_slot (t : List (String × AsgSlot))
    (num size : Nat) (hsz : 1 ≤ size) (hts : ∀ e ∈ t, 1 ≤ e.2.size) :
    (check_if_asg_avail t num size = false
      ↔ num < 1 ∨ 80 < num ∨ 80 < num + size - 1
        ∨ ∃ e ∈ t, ∃ x, (num ≤ x ∧ x < num + size)
            ∧ (e.2.index ≤ x ∧ x < e.2.index + e.2.size))
    ∧ (∀ n, get_next_asg_num t size = some n →
        1 ≤ n ∧ n ≤ 80 ∧ check_if_asg_avail t n size = true
          ∧ ∀ m, 1 ≤ m → m < n → check_if_asg_avail t m size = false)
    ∧ (get_next_asg_num t size = none →
        ∀ m, 1 ≤ m → m ≤ 80 → check_if_asg_avail t m size = false) := by
  refine ⟨?_, ?_, ?_⟩
  · unfold check_if_asg_avail
    by_cases h1 : (num < 1 || 80 < num) = true
    · rw [if_pos h1]
      simp only [eq_self_iff_true, true_iff]
      simp only [Bool.or_eq_true, decide_eq_true_eq] at h1
      tauto
    · rw [if_neg h1]
      simp only [Bool.or_eq_true, decide_eq_true_eq, not_or] at h1
      by_cases h2 : 80 < num + size - 1
      · rw [if_pos (by simpa using h2)]
        simp only [eq_self_iff_true, true_iff]
        tauto
      · rw [if_neg (by simpa using h2)]
        rw [List.all_eq_false]
        constructor
        · rintro ⟨e, he, hov⟩
          have : overlapCond num size e.2 = true := by
            simpa using hov
          exact Or.inr (Or.inr (Or.inr ⟨e, he,
            (overlapCond_iff_exists num size e.2 hsz (hts e he)).mp this⟩))
        · intro h
          rcases h with h | h | h | ⟨e, he, hx⟩
          · omega
          · exact absurd h h1.2
          · exact absurd h h2
          · refine ⟨e, he, ?_⟩
            have := (overlapCond_iff_exists num size e.2 hsz (hts e he)).mpr hx
            simp [this]
  · intro n h
    obtain ⟨h1, h2, h3, h4⟩ := nextAsgLoop_some_spec t size 80 1 n h
    exact ⟨h1, by omega, h3, fun m hm1 hm2 => h4 m hm1 hm2⟩
  · intro h m h1 h2
    exact nextAsgLoop_none_spec t size 80 1 h m h1 (by omega)

/-- C7 witness at a table holding one two-word entry at slot 1: start 2 of
size 2 is not free precisely because of a genuine intersection, and the next
free slot facts instantiate. -/
theorem claim_C7_range_free_and_next_slot_witness :
    (check_if_asg_avail [("A", ⟨2, 0, 1⟩)] 2 2 = false
      ↔ 2 < 1 ∨ 80 < 2 ∨ 80 < 2 + 2 - 1
        ∨ ∃ e ∈ [("A", (⟨2, 0, 1⟩ : AsgSlot))], ∃ x, (2 ≤ x ∧ x < 2 + 2)
            ∧ (e.2.index ≤ x ∧ x < e.2.index + e.2.size))
    ∧ (∀ n, get_next_asg_num [("A", ⟨2, 0, 1⟩)] 2 = some n →
        1 ≤ n ∧ n ≤ 80 ∧ check_if_asg_avail [("A", ⟨2, 0, 1⟩)] n 2 = true
          ∧ ∀ m, 1 ≤ m → m < n →
              check_if_asg_avail [("A", ⟨2, 0, 1⟩)] m 2 = false)
    ∧ (get_next_asg_num [("A", ⟨2, 0, 1⟩)] 2 = none →
        ∀ m, 1 ≤ m → m ≤ 80 →
          check_if_asg_avail [("A", ⟨2, 0, 1⟩)] m 2 = false) :=
  claim_C7_range_free_and_next_slot [("A", ⟨2, 0, 1⟩)] 2 2 (by decide)
    (by decide)

/-! ### Table invariant under sequences of set_asg calls -/

/-- One requested `set_asg` call, including the wire outcome. -/
structure AsgReq where
  name : String
  vt : FanucVariable
  asg : Option Nat
  w : Wire

/-- Run a sequence of `set_asg` calls against the session table, starting
from the empty table, keeping whatever table each call leaves behind
(also on a raised exception). -/
def runAsgs (reqs : List AsgReq) : List (String × AsgSlot) :=
  reqs.foldl (fun t r => (set_asg t r.name r.vt r.asg r.w).table) []

def slotRange (s : AsgSlot) (x : Nat) : Prop :=
  s.index ≤ x ∧ x < s.index + s.size

def slotsDisjoint (a b : AsgSlot) : Prop :=
  ¬ ∃ x, slotRange a x ∧ slotRange b x

/-- The allocator invariant: every recorded range stays inside slots 1-80
and distinct entries never intersect. -/
def tableInv (t : List (String × AsgSlot)) : Prop :=
  (∀ e ∈ t, 1 ≤ e.2.index ∧ e.2.index + e.2.size - 1 ≤ 80)
  ∧ t.Pairwise (fun a b => slotsDisjoint a.2 b.2)

theorem check_true_facts (t : List (String × AsgSlot)) (num size : Nat)
    (h : check_if_asg_avail t num size = true) :
    1 ≤ num ∧ num ≤ 80 ∧ num + size - 1 ≤ 80
      ∧ ∀ e ∈ t, overlapCond num size e.2 = false := by
  unfold check_if_asg_avail at h
  by_cases h1 : (num < 1 || 80 < num) = true
  · rw [if_pos h1] at h; exact absurd h (by simp)
  · rw [if_neg h1] at h
    by_cases h2 : (80 < num + size - 1)
    · rw [if_pos (by simpa using h2)] at h; exact absurd h (by simp)
    · rw [if_neg (by simpa using h2)] at h
      simp only [Bool.or_eq_true, decide_eq_true_eq, not_or] at h1
      refine ⟨by omega, by omega, by omega, ?_⟩
      intro e he
      have := (List.all_eq_true.mp h) e he
      simpa using this

theorem overlapCond_false_disjoint (num size : Nat) (m : Int) (s : AsgSlot)
    (h : overlapCond num size s = false) :
    slotsDisjoint s ⟨size, m, num⟩ := by
  unfold slotsDisjoint slotRange
  rintro ⟨x, ⟨b1, b2⟩, a1, a2⟩
  unfold overlapCond at h
  simp only [Bool.and_eq_false_iff, decide_eq_false_iff_not, gt_iff_lt] at h
  dsimp only at a1 a2
  rcases h with h | h <;> omega

/-- Case analysis on `set_asg`: either nothing was sent and the table is
untouched, or the availability check passed, exactly one packet went out,
and the entry was recorded (also when the acknowledgement then failed). -/
theorem set_asg_cases (t : List (String × AsgSlot)) (name : String)
    (vt : FanucVariable) (asg? : Option Nat) (w : Wire) :
    ((set_asg t name vt asg? w).table = t
      ∧ (set_asg t name vt asg? w).sends = 0)
    ∨ ∃ n, check_if_asg_avail t n vt.size = true
        ∧ (set_asg t name vt asg? w).table
            = t ++ [(name, ⟨vt.size, vt.multiply, n⟩)]
        ∧ (set_asg t name vt asg? w).sends = 1
        ∧ w ≠ Wire.sendFail := by
  unfold set_asg
  by_cases hl : (lookupAsg t name).isSome
  · rw [if_pos hl]; exact Or.inl ⟨rfl, rfl⟩
  · rw [if_neg hl]
    have send_cases : ∀ n, check_if_asg_avail t n vt.size = true →
        ((setAsgSend t name vt n w).table = t
          ∧ (setAsgSend t name vt n w).sends = 0)
        ∨ ((setAsgSend t name vt n w).table
              = t ++ [(name, ⟨vt.size, vt.multiply, n⟩)]
            ∧ (setAsgSend t name vt n w).sends = 1
            ∧ w ≠ Wire.sendFail) := by
      intro n hn
      unfold setAsgSend
      by_cases hr : (n < 1 || 80 < n) = true
      · rw [if_pos hr]; exact Or.inl ⟨rfl, rfl⟩
      · rw [if_neg hr]
        cases w
        · exact Or.inr ⟨rfl, rfl, by simp⟩
        · exact Or.inl ⟨rfl, rfl⟩
        · exact Or.inr ⟨rfl, rfl, by simp⟩
    cases asg? with
    | none =>
      dsimp only
      cases hg : get_next_asg_num t vt.size with
      | none => exact Or.inl ⟨rfl, rfl⟩
      | some n =>
        have hchk := (nextAsgLoop_some_spec t vt.size 80 1 n hg).2.2.1
        rcases send_cases n hchk with h | h
        · exact Or.inl h
        · exact Or.inr ⟨n, hchk, h⟩
    | some n =>
      dsimp only
      by_cases hc : check_if_asg_avail t n vt.size = true
      · rw [if_pos hc]
        rcases send_cases n hc with h | h
        · exact Or.inl h
        · exact Or.inr ⟨n, hc, h⟩
      · rw [if_neg hc]; exact Or.inl ⟨rfl, rfl⟩

theorem tableInv_insert (t : List (String × AsgSlot)) (hinv : tableInv t)
    (name : String) (vt : FanucVariable) (n : Nat)
    (hchk : check_if_asg_avail t n vt.size = true) :
    tableInv (t ++ [(name, ⟨vt.size, vt.multiply, n⟩)]) := by
  obtain ⟨hb, hp⟩ := hinv
  obtain ⟨h1, h2, h3, h4⟩ := check_true_facts t n vt.size hchk
  constructor
  · intro e he
    rcases List.mem_append.mp he with he | he
    · exact hb e he
    · simp only [List.mem_singleton] at he
      rw [he]
      exact ⟨h1, h3⟩
  · rw [List.pairwise_append]
    refine ⟨hp, by simp, ?_⟩
    intro a ha b hbm
    simp only [List.mem_singleton] at hbm
    rw [hbm]
    exact overlapCond_false_disjoint n vt.size vt.multiply a.2 (h4 a ha)

/-- C8: after any sequence of `set_asg` calls (successful or failing)
starting from the empty table, the table satisfies the invariant: recorded
ranges fit in slots 1-80 and distinct entries never intersect. -/
theorem claim_C8_table_invariant (reqs : List AsgReq) :
    tableInv (runAsgs reqs) := by
  have main : ∀ (rs : List AsgReq) (t : List (String × AsgSlot)), tableInv t →
      tableInv (rs.foldl
        (fun t r => (set_asg t r.name r.vt r.asg r.w).table) t) := by
    intro rs
    induction rs with
    | nil => intro t ht; exact ht
    | cons r rest ih =>
      intro t ht
      rw [List.foldl_cons]
      apply ih
      rcases set_asg_cases t r.name r.vt r.asg r.w with ⟨h, _⟩ | ⟨n, hc, h, _, _⟩
      · rw [h]; exact ht
      · rw [h]; exact tableInv_insert t ht r.name r.vt n hc
  exact main reqs [] ⟨by simp, by simp⟩

theorem lookupAsg_append_self (t : List (String × AsgSlot)) (name : String)
    (s : AsgSlot) : (lookupAsg (t ++ [(name, s)]) name).isSome := by
  induction t with
  | nil => simp [lookupAsg]
  | cons e rest ih =>
    rw [List.cons_append]
    unfold lookupAsg
    by_cases h : e.1 = name
    · rw [if_pos h]; rfl
    · rw [if_neg h]; exact ih

theorem set_asg_cached (t : List (String × AsgSlot)) (name : String)
    (vt : FanucVariable) (asg? : Option Nat) (w : Wire)
    (h : (lookupAsg t name).isSome) :
    set_asg t name vt asg? w = ⟨.retNone, t, 0⟩ := by
  unfold set_asg
  rw [if_pos h]

/-- C3 counterexample: on a fresh table, the wire acknowledgement fails
(recv raises) yet the entry for the variable name remains in the local
table, refuting that a failed wire call leaves no stale entry. -/
theorem claim_C3_counterexample :
    (set_asg [] "X" VariableTypes.INT none Wire.recvFail).ret
        = PyRet.raised "recv failed"
    ∧ (set_asg [] "X" VariableTypes.INT none Wire.recvFail).table ≠ []
    ∧ lookupAsg (set_asg [] "X" VariableTypes.INT none Wire.recvFail).table "X"
        = some ⟨2, 1, 1⟩ := by
  exact ⟨rfl, by decide, rfl⟩

/-- C3 amended: the send is issued before the entry is recorded, so a failed
send leaves no stale entry; but the entry is recorded before the
acknowledgement is received, so whenever a packet went out and the
acknowledgement fails, the entry is (and stays) in the local table. -/
theorem claim_C3_amended_atomicity (t : List (String × AsgSlot))
    (name : String) (vt : FanucVariable) (asg? : Option Nat) :
    ((set_asg t name vt asg? Wire.sendFail).table = t)
    ∧ ((set_asg t name vt asg? Wire.recvFail).sends = 1 →
        (lookupAsg (set_asg t name vt asg? Wire.recvFail).table name).isSome) := by
  constructor
  · rcases set_asg_cases t name vt asg? .sendFail with ⟨h, _⟩ | ⟨n, _, _, _, hw⟩
    · exact h
    · exact absurd rfl hw
  · intro hs
    rcases set_asg_cases t name vt asg? .recvFail with ⟨_, h0⟩ | ⟨n, _, ht, _, _⟩
    · rw [h0] at hs; exact absurd hs (by simp)
    · rw [ht]; exact lookupAsg_append_self t name _

/-- C3 witness at a concrete fresh call. -/
theorem claim_C3_amended_atomicity_witness :
    (set_asg [] "X" VariableTypes.INT none Wire.sendFail).table = []
    ∧ (lookupAsg (set_asg [] "X" VariableTypes.INT none Wire.recvFail).table
        "X").isSome := by
  have h := claim_C3_amended_atomicity [] "X" VariableTypes.INT none
  exact ⟨h.1, h.2 (by decide)⟩

/-- C4 counterexample: after a successful assignment of "X", a second call
for "X" performs no wire interaction but returns Python None (the bare
`return` of source line 340), not the recorded AssignmentSlot — the slot is
only in the table, never returned. -/
theorem claim_C4_counterexample :
    (set_asg (set_asg [] "X" VariableTypes.INT none Wire.ok).table "X"
        VariableTypes.INT none Wire.ok).ret = PyRet.retNone
    ∧ (set_asg (set_asg [] "X" VariableTypes.INT none Wire.ok).table "X"
        VariableTypes.INT none Wire.ok).sends = 0
    ∧ lookupAsg (set_asg [] "X" VariableTypes.INT none Wire.ok).table "X"
        = some ⟨2, 1, 1⟩ := by
  exact ⟨rfl, rfl, rfl⟩

/-- C4 amended: assigning a name already in the table is a no-op — no wire
packet, table unchanged — returning None rather than the recorded slot; and
when a first call for a name actually sent a packet, any second call for the
same name is such a no-op, so the wire command goes out at most once. -/
theorem claim_C4_amended_idempotent (t : List (String × AsgSlot))
    (name : String) (vt vt2 : FanucVariable) (asg? asg2 : Option Nat)
    (w w2 : Wire) :
    ((lookupAsg t name).isSome → set_asg t name vt asg? w = ⟨.retNone, t, 0⟩)
    ∧ ((set_asg t name vt asg? w).sends = 1 →
        set_asg (set_asg t name vt asg? w).table name vt2 asg2 w2
          = ⟨.retNone, (set_asg t name vt asg? w).table, 0⟩) := by
  constructor
  · intro h
    exact set_asg_cached t name vt asg? w h
  · intro hs
    rcases set_asg_cases t name vt asg? w with ⟨_, h0⟩ | ⟨n, _, ht, _, _⟩
    · rw [h0] at hs; exact absurd hs (by simp)
    · apply set_asg_cached
      rw [ht]
      exact lookupAsg_append_self t name _

/-- C4 witness at concrete calls. -/
theorem claim_C4_amended_idempotent_witness :
    set_asg [("X", ⟨2, 1, 1⟩)] "X" VariableTypes.INT none Wire.ok
      = ⟨PyRet.retNone, [("X", ⟨2, 1, 1⟩)], 0⟩
    ∧ set_asg (set_asg [] "X" VariableTypes.INT none Wire.ok).table "X"
        VariableTypes.INT none Wire.ok
      = ⟨PyRet.retNone, (set_asg [] "X" VariableTypes.INT none Wire.ok).table,
          0⟩ := by
  have h1 := claim_C4_amended_idempotent [("X", ⟨2, 1, 1⟩)] "X"
      VariableTypes.INT VariableTypes.INT none none Wire.ok Wire.ok
  have h2 := claim_C4_amended_idempotent [] "X" VariableTypes.INT
      VariableTypes.INT none none Wire.ok Wire.ok
  exact ⟨h1.1 (by decide), h2.2 (by decide)⟩

/-! ### Variable marshaller (source lines 460-467, 469-471, 522-552).
Numeric values are modelled as rationals: the INT scaling arithmetic
(`raw_value / multiply`, `int(value * multiply)`) is exact division and
truncation toward zero on the mathematical values.  `struct.pack('<i', raw)`
raises for an out-of-range argument, modelled as `none`. -/

/-- Python `int(x)` on a number: truncation toward zero. -/
def pytrunc (q : ℚ) : ℤ :=
  if 0 ≤ q then ⌊q⌋ else ⌈q⌉

/-- The INT encode step of `write_sys_var` (lines 529-535): scale then
truncate when `multiply` is nonzero (truthy), else truncate alone. -/
def encodeINT (s : ℤ) (v : ℚ) : ℤ :=
  if s = 0 then pytrunc v else pytrunc (v * s)

/-- The INT decode step of `read_sys_var` (lines 460-467): divide the raw
32-bit value by the scale when nonzero, else pass it through. -/
def decodeINT (s : ℤ) (raw : ℤ) : ℚ :=
  if s = 0 then (raw : ℚ) else (raw : ℚ) / (s : ℚ)

/-- `struct.pack('<i', n)`: four little-endian bytes of the two's-complement
representation, or a raised struct.error when out of range. -/
def int32ToBytes (n : ℤ) : Option (List Nat) :=
  if -2147483648 ≤ n ∧ n < 2147483648 then
    some [(n % 4294967296).toNat % 256,
          (n % 4294967296).toNat / 256 % 256,
          (n % 4294967296).toNat / 65536 % 256,
          (n % 4294967296).toNat / 16777216 % 256]
  else none

/-- `struct.unpack('<i', bytes)`: little-endian accumulation, signed. -/
def int32OfBytes (bs : List Nat) : ℤ :=
  let u : Nat := bs.foldr (fun b acc => b + 256 * acc) 0
  if u < 2147483648 then (u : ℤ) else (u : ℤ) - 4294967296

/-- The STRING encode step of `write_sys_var` (lines 536-539 together with
the ensure-exact-length block 543-547): truncate the ASCII bytes to the
declared byte width and right-pad with NUL.  ASCII code points map to
themselves under Python's ascii codec. -/
def encodeSTRING (byteLen : Nat) (s : List Nat) : List Nat :=
  s.take byteLen ++ List.replicate (byteLen - (s.take byteLen).length) 0

/-- The STRING decode step of `read_sys_var` (line 471):
`data_bytes.decode('ascii').strip('\x00')` — Python `strip` removes NUL
bytes from both ends. -/
def decodeSTRING (b : List Nat) : List Nat :=
  ((b.dropWhile (fun x => x == 0)).reverse.dropWhile (fun x => x == 0)).reverse

/-- The payload splice of `write_sys_var` (lines 549-552):
`for i, b in enumerate(payload): command[48 + i] = b`.  Python list index
assignment raises IndexError as soon as `48 + i` reaches the frame length;
modelled as `none` (either way no frame is ever sent). -/
def pyAssignRange (cmd : List Nat) (start : Nat) (payload : List Nat) :
    Option (List Nat) :=
  if start + payload.length ≤ cmd.length then
    some (cmd.take start ++ payload ++ cmd.drop (start + payload.length))
  else none

/-- The header-field stores of `write_sys_var` (lines 502-520) on the
56-byte template. -/
def writeSysVarHeader (vt : FanucVariable) (asgIndex : Nat) : List Nat :=
  ((((((((BASE_MSG.set 2 (vt.size * 2 % 256)).set 3
      (vt.size * 2 / 256 % 256)).set 30 (vt.size * 2 % 256)).set 42
      0x07).set 43 0x08).set 44 ((asgIndex - 1) % 256)).set 45
      ((asgIndex - 1) / 256 % 256)).set 46 (vt.size % 256)).set 47
      (vt.size / 256 % 256)

/-- The frame-assembly tail of `write_sys_var`: normalize the payload to
exactly `var_type.size * 2` bytes (lines 543-547), then splice it into the
frame one byte at a time starting at offset 48 (lines 549-552). -/
def write_sys_var_splice (vt : FanucVariable) (asgIndex : Nat)
    (payload0 : List Nat) : Option (List Nat) :=
  pyAssignRange (writeSysVarHeader vt asgIndex) 48
    (payload0.take (vt.size * 2)
      ++ List.replicate (vt.size * 2 - (payload0.take (vt.size * 2)).length) 0)

/-! ### Marshaller lemmas and claims -/

theorem pytrunc_intCast (n : ℤ) : pytrunc (n : ℚ) = n := by
  unfold pytrunc
  split_ifs
  · exact Int.floor_intCast n
  · exact Int.ceil_intCast n

theorem abs_pytrunc_sub_le (x : ℚ) : |(pytrunc x : ℚ) - x| ≤ 1 := by
  unfold pytrunc
  split_ifs with h
  · have h1 := Int.floor_le x
    have h2 := Int.lt_floor_add_one x
    rw [abs_le]
    constructor <;> linarith
  · have h1 := Int.le_ceil x
    have h2 := Int.ceil_lt_add_one x
    rw [abs_le]
    constructor <;> linarith

theorem int32_roundtrip (n : ℤ) (h1 : -2147483648 ≤ n) (h2 : n < 2147483648) :
    ∃ bs, int32ToBytes n = some bs ∧ bs.length = 4 ∧ int32OfBytes bs = n := by
  unfold int32ToBytes
  rw [if_pos ⟨h1, h2⟩]
  refine ⟨_, rfl, rfl, ?_⟩
  unfold int32OfBytes
  simp only [List.foldr]
  split_ifs with h <;> omega

theorem decodeINT_encodeINT_abs_le (s : ℤ) (hs : s ≠ 0) (v : ℚ) :
    |decodeINT s (encodeINT s v) - v| ≤ 1 / |(s : ℚ)| := by
  have hsQ : (s : ℚ) ≠ 0 := Int.cast_ne_zero.mpr hs
  have hsabs : 0 < |(s : ℚ)| := abs_pos.mpr hsQ
  unfold decodeINT encodeINT
  rw [if_neg hs, if_neg hs]
  have key : (pytrunc (v * s) : ℚ) / (s : ℚ) - v
      = ((pytrunc (v * s) : ℚ) - v * s) / (s : ℚ) := by
    field_simp
    ring
  rw [key, abs_div]
  rw [div_le_div_iff_of_pos_right hsabs]
  exact abs_pytrunc_sub_le (v * s)

/-- C2 counterexample: with the INT scale 1 (the canonical INT descriptor)
and value 1.9, the code encodes `int(1.9) = 1`, not `round(1.9) = 2`:
encoding truncates toward zero instead of rounding. -/
theorem claim_C2_counterexample :
    encodeINT 1 (19 / 10 : ℚ) = 1
    ∧ round ((19 / 10 : ℚ) * ((1 : ℤ) : ℚ)) = 2
    ∧ encodeINT 1 (19 / 10 : ℚ) ≠ round ((19 / 10 : ℚ) * ((1 : ℤ) : ℚ)) := by
  have h1 : encodeINT 1 (19 / 10 : ℚ) = 1 := by
    unfold encodeINT pytrunc
    rw [if_neg (by norm_num), if_pos (by norm_num)]
    rw [show ((1 : ℤ) : ℚ) = 1 from rfl, mul_one]
    rw [Int.floor_eq_iff]
    norm_num
  have h2 : round ((19 / 10 : ℚ) * ((1 : ℤ) : ℚ)) = 2 := by
    rw [show ((1 : ℤ) : ℚ) = 1 from rfl, mul_one, round_eq]
    rw [Int.floor_eq_iff]
    norm_num
  exact ⟨h1, h2, by rw [h1, h2]; decide⟩

/-- C2 amended: INT marshalling — the raw value decodes to rawInt/s for
s ≠ 0 and passes through unscaled for s = 0; encoding maps v to trunc(v*s)
(Python `int()`, truncation toward zero), not round(v*s); through the
4-byte little-endian wire form, decode(encode(v)) is within one unit of
1/s of v in absolute value when s ≠ 0, and exact for integer values when
s = 0. -/
theorem claim_C2_int_scaling_amended (s : ℤ) (v : ℚ) (n : ℤ) :
    (∀ raw : ℤ, s ≠ 0 → decodeINT s raw = (raw : ℚ) / (s : ℚ))
    ∧ (∀ raw : ℤ, decodeINT 0 raw = (raw : ℚ))
    ∧ (s ≠ 0 → encodeINT s v = pytrunc (v * s))
    ∧ (-2147483648 ≤ n → n < 2147483648 →
        ∃ bs, int32ToBytes (encodeINT 0 (n : ℚ)) = some bs ∧ bs.length = 4
          ∧ decodeINT 0 (int32OfBytes bs) = (n : ℚ))
    ∧ (s ≠ 0 → -2147483648 ≤ pytrunc (v * s) → pytrunc (v * s) < 2147483648 →
        ∃ bs, int32ToBytes (encodeINT s v) = some bs ∧ bs.length = 4
          ∧ |decodeINT s (int32OfBytes bs) - v| ≤ 1 / |(s : ℚ)|) := by
  refine ⟨?_, ?_, ?_, ?_, ?_⟩
  · intro raw hs
    unfold decodeINT
    rw [if_neg hs]
  · intro raw
    unfold decodeINT
    rw [if_pos rfl]
  · intro hs
    unfold encodeINT
    rw [if_neg hs]
  · intro h1 h2
    have he : encodeINT 0 (n : ℚ) = n := by
      unfold encodeINT
      rw [if_pos rfl]
      exact pytrunc_intCast n
    rw [he]
    obtain ⟨bs, hb, hl, hv⟩ := int32_roundtrip n h1 h2
    refine ⟨bs, hb, hl, ?_⟩
    rw [hv]
    unfold decodeINT
    rw [if_pos rfl]
  · intro hs h1 h2
    have he : encodeINT s v = pytrunc (v * s) := by
      unfold encodeINT
      rw [if_neg hs]
    rw [he]
    obtain ⟨bs, hb, hl, hv⟩ := int32_roundtrip (pytrunc (v * s)) h1 h2
    refine ⟨bs, hb, hl, ?_⟩
    rw [hv]
    have h := decodeINT_encodeINT_abs_le s hs v
    rw [he] at h
    exact h

/-- C2 witness at scale 10 and value 1.9, and at scale 0 with the integer
5. -/
theorem claim_C2_int_scaling_amended_witness :
    decodeINT 10 19 = (19 : ℚ) / ((10 : ℤ) : ℚ)
    ∧ (∃ bs, int32ToBytes (encodeINT 0 ((5 : ℤ) : ℚ)) = some bs
        ∧ bs.length = 4 ∧ decodeINT 0 (int32OfBytes bs) = ((5 : ℤ) : ℚ))
    ∧ (∃ bs, int32ToBytes (encodeINT 10 (19 / 10 : ℚ)) = some bs
        ∧ bs.length = 4
        ∧ |decodeINT 10 (int32OfBytes bs) - (19 / 10 : ℚ)|
            ≤ 1 / |((10 : ℤ) : ℚ)|) := by
  have h := claim_C2_int_scaling_amended 10 (19 / 10 : ℚ) 5
  have hp : pytrunc ((19 / 10 : ℚ) * ((10 : ℤ) : ℚ)) = 19 := by
    have he : ((19 / 10 : ℚ) * ((10 : ℤ) : ℚ)) = ((19 : ℤ) : ℚ) := by
      norm_num
    rw [he, pytrunc_intCast]
  exact ⟨h.1 19 (by norm_num), h.2.2.2.1 (by norm_num) (by norm_num),
    h.2.2.2.2 (by norm_num) (by rw [hp]; norm_num) (by rw [hp]; norm_num)⟩

/-! ### STRING marshalling claims -/

theorem dropWhile_zero_replicate_append (k : Nat) (l : List Nat) :
    (List.replicate k 0 ++ l).dropWhile (fun x => x == 0)
      = l.dropWhile (fun x => x == 0) := by
  induction k with
  | zero => rfl
  | succ m ih => simpa [List.replicate_succ, List.dropWhile_cons] using ih

/-- C10 counterexample: a two-byte ASCII string starting with NUL does not
survive the round-trip — `strip` removes the leading NUL as well, refuting
the round-trip for every ASCII string of width at most 160. -/
theorem claim_C10_counterexample :
    decodeSTRING (encodeSTRING (VariableTypes.STRING.size * 2) [0, 65]) = [65]
    ∧ decodeSTRING (encodeSTRING (VariableTypes.STRING.size * 2) [0, 65])
        ≠ [0, 65] := by
  exact ⟨by decide, by decide⟩

/-- C10 amended: encode right-pads with NUL to the fixed 160-byte width,
truncating longer input silently; decode strips NUL bytes from BOTH ends
(Python `strip`, not just trailing), so the round-trip
decode(encode(s)) = s holds for every ASCII string of length at most the
width with no leading and no trailing NUL byte. -/
theorem claim_C10_string_roundtrip_amended (s : List Nat)
    (hlen : s.length ≤ VariableTypes.STRING.size * 2)
    (hascii : ∀ c ∈ s, c < 128)
    (hhead : s.head? ≠ some 0) (hlast : s.getLast? ≠ some 0) :
    decodeSTRING (encodeSTRING (VariableTypes.STRING.size * 2) s) = s := by
  have htake : s.take (VariableTypes.STRING.size * 2) = s :=
    List.take_of_length_le hlen
  unfold encodeSTRING decodeSTRING
  rw [htake]
  cases s with
  | nil =>
    simp only [List.nil_append, List.length_nil, Nat.sub_zero]
    rw [show (List.replicate (VariableTypes.STRING.size * 2) 0).dropWhile
          (fun x => x == 0) = ([] : List Nat) from by
        simpa using dropWhile_zero_replicate_append
          (VariableTypes.STRING.size * 2) []]
    rfl
  | cons a t =>
    have ha : a ≠ 0 := by
      intro hc
      rw [hc] at hhead
      exact hhead rfl
    rw [List.cons_append, List.dropWhile_cons]
    rw [if_neg (by simpa using ha)]
    rw [← List.cons_append, List.reverse_append, List.reverse_replicate]
    rw [dropWhile_zero_replicate_append]
    cases hrev : (a :: t).reverse with
    | nil => exact absurd hrev (by simp)
    | cons b u =>
      have hb : b ≠ 0 := by
        intro hc
        have : (a :: t).getLast? = some b := by
          rw [← List.head?_reverse, hrev]
          rfl
        rw [hc] at this
        exact hlast this
      rw [List.dropWhile_cons, if_neg (by simpa using hb)]
      rw [← hrev, List.reverse_reverse]

/-- C10 witness at the spec's example "ABC". -/
theorem claim_C10_string_roundtrip_amended_witness :
    decodeSTRING (encodeSTRING (VariableTypes.STRING.size * 2) [65, 66, 67])
      = [65, 66, 67] :=
  claim_C10_string_roundtrip_amended [65, 66, 67] (by decide) (by decide)
    (by decide) (by decide)

set_option maxRecDepth 4000 in
/-- C1: the claim fails on the code for STRING and the spec is the evident
intent — `write_sys_var` builds the fixed-width STRING payload
(160 bytes) and then assigns it one byte at a time starting at frame offset
48 of the 56-byte frame, so the ninth byte targets index 56 and Python
raises IndexError; INT and REAL writes (4-byte payloads) splice fine and
keep the 56-byte frame. -/
theorem claim_C1_string_write_overflow :
    write_sys_var_splice VariableTypes.STRING 1
        (encodeSTRING (VariableTypes.STRING.size * 2) [65, 66, 67]) = none
    ∧ Option.map List.length
        (write_sys_var_splice VariableTypes.INT 1 [1, 0, 0, 0]) = some 56
    ∧ Option.map List.length
        (write_sys_var_splice VariableTypes.REAL 1 [0, 0, 128, 63])
      = some 56 := by
  exact ⟨by decide, by decide, by decide⟩

end Snpx
